import Mathlib

/-!
Verification of the once_map repository (`src/lib.rs`).

Shallow embedding of the `OnceMap` write-once concurrent map.

Modelling choices, matching `src/lib.rs`:

* The field `cache : OnceCell<Arc<RwLock<HashMap<K, Arc<V>, S>>>>` is embedded
  as `cache : Option (List (K × V))`.  `none` is the unfilled `OnceCell`
  (table never materialized); `some entries` is the filled cell holding the
  hash map, embedded as an association list (the map never holds duplicate
  keys since insertion only happens on a vacant entry).
* `Arc<V>` dereferencing (`&*Arc::as_ptr`) hands out the stored value itself.
* Closures `F: FnOnce() -> V` may have side effects (that is what "invoked
  exactly once" is about), so the initializer is embedded as a state
  transformer `f : σ → V × σ` over an arbitrary instrumentation state `σ`;
  every operation threads that state and returns the final one.  "f was not
  invoked" is then `finalState = s`, and "f was invoked exactly once" is
  `finalState = (f s).2`, both for arbitrary `σ`, `f` and `s`.
* The sequential API (`get` / `init` / `get_or_init`) follows the source's
  control flow line by line, including the second presence check performed
  after re-acquiring the lock in write mode.  A separate small-step relation
  (`RaceStep`, further down) models interleaved callers for the concurrency
  claim, at the granularity at which the `RwLock` serializes the code:
  the read-locked probe and the write-locked entry access are each atomic.
-/

/-- Rust `enum GetOrInitData<T>` with variants `Init(T)` and `Get(T)`, from `src/lib.rs`. -/
inductive GetOrInitData (T : Type) where
  | Init (data : T)
  | Get (data : T)
deriving DecidableEq, Repr

/-- Method `GetOrInitData::into_data` from `src/lib.rs`. -/
def GetOrInitData.into_data {T : Type} : GetOrInitData T → T
  | .Get data => data
  | .Init data => data

/-- Lookup in the association list embedding of `HashMap<K, Arc<V>>`. -/
def findVal {K V : Type} [DecidableEq K] : List (K × V) → K → Option V
  | [], _ => none
  | (k1, v) :: rest, k => if k1 = k then some v else findVal rest k

/-- Rust `struct OnceMap<K, V>` with field `cache: OnceCell<Arc<RwLock<HashMap<K, Arc<V>>>>>`. -/
structure OnceMap (K V : Type) where
  cache : Option (List (K × V))

/-- Constructor `OnceMap::new`: `cache: OnceCell::new()` — the cell starts unfilled. -/
def OnceMap.new {K V : Type} : OnceMap K V := ⟨none⟩

/-- Function `OnceMap::get` from `src/lib.rs` lines 61-66:
`let cache = self.cache.get()?;` then a read-locked `map.get(key)?`.
It only reads (`self.cache.get`, `cache.read`, `map.get`), so no state
component changes and the embedding returns just the optional value. -/
def OnceMap.get {K V : Type} [DecidableEq K] (m : OnceMap K V) (k : K) : Option V :=
  match m.cache with
  | none => none
  | some entries => findVal entries k

/-- Function `OnceMap::init` from `src/lib.rs` lines 71-101, threading the
instrumentation state of the initializer.  Returns
`(returned bool, final map, final initializer state)`. -/
def OnceMap.init {K V σ : Type} [DecidableEq K] (m : OnceMap K V) (k : K)
    (f : σ → V × σ) (s : σ) : Bool × OnceMap K V × σ :=
  match m.cache with
  -- `let Some(cache) = self.cache.get() else { return false; }`
  | none => (false, m, s)
  | some entries =>
    -- read lock: `match map.get(&key) { Some(_) => return false, _ => () }`
    match findVal entries k with
    | some _ => (false, m, s)
    | none =>
      -- write lock: `match map.entry(key)`
      match findVal entries k with
      | some _ => (false, m, s)
      | none =>
        -- `Entry::Vacant(e) => { e.insert(Arc::new(f())); true }`
        (true, ⟨some ((k, (f s).1) :: entries)⟩, (f s).2)

/-- Function `OnceMap::get_or_init` from `src/lib.rs` lines 105-138, threading the
instrumentation state of the initializer.  Returns
`(GetOrInitData, final map, final initializer state)`. -/
def OnceMap.get_or_init {K V σ : Type} [DecidableEq K] (m : OnceMap K V) (k : K)
    (f : σ → V × σ) (s : σ) : GetOrInitData V × OnceMap K V × σ :=
  -- `let cache = self.cache.get_or_init(|| Default::default());`
  let entries := m.cache.getD []
  -- read lock: `match map.get(&key)`
  match findVal entries k with
  | some v => (.Get v, ⟨some entries⟩, s)
  | none =>
    -- write lock: `match map.entry(key)`
    match findVal entries k with
    | some v => (.Get v, ⟨some entries⟩, s)
    | none =>
      (.Init (f s).1, ⟨some ((k, (f s).1) :: entries)⟩, (f s).2)

/-- An uninstrumented closure `F: FnOnce() -> V`, lifted to the
state-transformer form with trivial instrumentation state. -/
def liftF {V : Type} (f : Unit → V) : Unit → V × Unit := fun _ => (f (), ())

/-- One API call on the map, for reasoning about call sequences. -/
inductive Op (K V : Type) where
  | get (k : K)
  | init (k : K) (f : Unit → V)
  | getOrInit (k : K) (f : Unit → V)

/-- The map state after one API call.  `get` takes `&self` and performs no
interior mutation (it calls `OnceCell::get`, not `get_or_init`), so it leaves
the state as is; the other two return the state produced by the embedding. -/
def step {K V : Type} [DecidableEq K] (m : OnceMap K V) : Op K V → OnceMap K V
  | .get _ => m
  | .init k f => (m.init k (liftF f) ()).2.1
  | .getOrInit k f => (m.get_or_init k (liftF f) ()).2.1

/-- The map state after a sequence of API calls. -/
def exec {K V : Type} [DecidableEq K] (m : OnceMap K V) : List (Op K V) → OnceMap K V
  | [] => m
  | op :: ops => exec (step m op) ops

/-- The key under which an operation may insert an entry (`get` never does). -/
def Op.mayInsert {K V : Type} : Op K V → Option K
  | .get _ => none
  | .init k _ => some k
  | .getOrInit k _ => some k

/-- The list of results of `n` successive `get k` calls, each performed on
the state left by the previous call. -/
def repeatGet {K V : Type} [DecidableEq K] (m : OnceMap K V) (k : K) : Nat → List (Option V)
  | 0 => []
  | n + 1 => m.get k :: repeatGet (step m (.get k)) k n

/-!
Concurrency model for `get_or_init` on one fixed key.

The `RwLock` in `src/lib.rs` serializes the read-locked probe
(lines 120-124) and the write-locked `entry` access (lines 131-137) of
`get_or_init`; between a caller's two locked sections other callers may run
whole locked sections of their own (the read guard is dropped before the
write lock is taken, line 127).  For a fixed key `K`, each locked section
reads and writes only the entry stored under `K`, so `slot` abstracts the
shared map restricted to that key (`none` = absent; the `OnceCell`
materialization on line 111 never touches the entry).  Caller `i` runs
`get_or_init K f_i`, where `fs i` is the value its initializer returns and
`calls` counts how many times that initializer was actually invoked.
-/

/-- Where one caller stands inside `get_or_init`: before the read-locked
probe, between its two locked sections, or returned with its result. -/
inductive Phase (V : Type) where
  | start
  | needWrite
  | done (r : GetOrInitData V)
deriving DecidableEq

/-- One caller: its control position and its initializer invocation count. -/
structure RaceCaller (V : Type) where
  phase : Phase V
  calls : Nat
deriving DecidableEq

/-- The shared entry under the fixed key plus every caller's local state. -/
structure RaceState (n : Nat) (V : Type) where
  slot : Option V
  callers : Fin n → RaceCaller V

/-- All callers about to run, key absent. -/
def raceInit (n : Nat) (V : Type) : RaceState n V :=
  ⟨none, fun _ => ⟨.start, 0⟩⟩

/-- One atomic locked section of one caller, mirroring `get_or_init`:
`readHit`/`readMiss` are the read-locked probe (`map.get(&key)`,
lines 120-124), `writeHit` is the write-locked `Entry::Occupied` arm
(line 133), and `writeMiss` the `Entry::Vacant` arm that invokes the
initializer and inserts (line 135). -/
inductive RaceStep {n : Nat} {V : Type} (fs : Fin n → V) :
    RaceState n V → RaceState n V → Prop where
  | readHit (st : RaceState n V) (i : Fin n) (v : V) :
      (st.callers i).phase = .start → st.slot = some v →
      RaceStep fs st ⟨st.slot,
        Function.update st.callers i ⟨.done (.Get v), (st.callers i).calls⟩⟩
  | readMiss (st : RaceState n V) (i : Fin n) :
      (st.callers i).phase = .start → st.slot = none →
      RaceStep fs st ⟨st.slot,
        Function.update st.callers i ⟨.needWrite, (st.callers i).calls⟩⟩
  | writeHit (st : RaceState n V) (i : Fin n) (v : V) :
      (st.callers i).phase = .needWrite → st.slot = some v →
      RaceStep fs st ⟨st.slot,
        Function.update st.callers i ⟨.done (.Get v), (st.callers i).calls⟩⟩
  | writeMiss (st : RaceState n V) (i : Fin n) :
      (st.callers i).phase = .needWrite → st.slot = none →
      RaceStep fs st ⟨some (fs i),
        Function.update st.callers i ⟨.done (.Init (fs i)), (st.callers i).calls + 1⟩⟩

/-- The race invariant: while the entry is absent nobody has finished and no
initializer has run; once it holds `fs j` for the unique winner `j`, that
winner is done with `Init (fs j)` after exactly one invocation, and everyone
else has zero invocations and is either still running or done with
`Get (fs j)`. -/
def raceInv {n : Nat} {V : Type} (fs : Fin n → V) (st : RaceState n V) : Prop :=
  (st.slot = none ∧ ∀ i, ((st.callers i).phase = .start ∨ (st.callers i).phase = .needWrite) ∧
      (st.callers i).calls = 0) ∨
  (∃ j, st.slot = some (fs j) ∧ (st.callers j).phase = .done (.Init (fs j)) ∧
    (st.callers j).calls = 1 ∧
    ∀ i, i ≠ j → (st.callers i).calls = 0 ∧
      ((st.callers i).phase = .start ∨ (st.callers i).phase = .needWrite ∨
        (st.callers i).phase = .done (.Get (fs j))))

/-- A concrete finished two-step execution of one caller (used to exercise
the race theorem at a concrete input): read-locked probe misses, then the
write-locked vacant arm initializes. -/
def raceFinal1 : RaceState 1 Nat :=
  ⟨some 5,
    Function.update (Function.update (raceInit 1 Nat).callers 0 ⟨.needWrite, 0⟩) 0
      ⟨.done (.Init 5), 1⟩⟩

/-! Helper lemmas. -/

theorem findVal_cons_self {K V : Type} [DecidableEq K] (k : K) (v : V) (rest : List (K × V)) :
    findVal ((k, v) :: rest) k = some v := by
  simp [findVal]

theorem findVal_cons_ne {K V : Type} [DecidableEq K] {k1 k : K} (v : V) (rest : List (K × V))
    (h : k1 ≠ k) : findVal ((k1, v) :: rest) k = findVal rest k := by
  simp [findVal, h]

theorem OnceMap.get_eq_some {K V : Type} [DecidableEq K] {m : OnceMap K V} {k : K} {v : V}
    (h : m.get k = some v) :
    ∃ entries, m.cache = some entries ∧ findVal entries k = some v := by
  cases hc : m.cache with
  | none => simp [OnceMap.get, hc] at h
  | some entries => exact ⟨entries, rfl, by simpa [OnceMap.get, hc] using h⟩

theorem OnceMap.init_cache_none {K V σ : Type} [DecidableEq K] {m : OnceMap K V}
    (k : K) (f : σ → V × σ) (s : σ) (h : m.cache = none) :
    m.init k f s = (false, m, s) := by
  simp [OnceMap.init, h]

theorem OnceMap.init_present {K V σ : Type} [DecidableEq K] {m : OnceMap K V}
    {entries : List (K × V)} {k : K} {v : V} (f : σ → V × σ) (s : σ)
    (hc : m.cache = some entries) (hk : findVal entries k = some v) :
    m.init k f s = (false, m, s) := by
  simp [OnceMap.init, hc, hk]

theorem OnceMap.init_absent {K V σ : Type} [DecidableEq K] {m : OnceMap K V}
    {entries : List (K × V)} {k : K} (f : σ → V × σ) (s : σ)
    (hc : m.cache = some entries) (hk : findVal entries k = none) :
    m.init k f s = (true, ⟨some ((k, (f s).1) :: entries)⟩, (f s).2) := by
  simp [OnceMap.init, hc, hk]

theorem OnceMap.getOrInit_present {K V σ : Type} [DecidableEq K] {m : OnceMap K V}
    {k : K} {v : V} (f : σ → V × σ) (s : σ) (h : m.get k = some v) :
    m.get_or_init k f s = (.Get v, m, s) := by
  obtain ⟨entries, hc, hk⟩ := OnceMap.get_eq_some h
  cases m
  cases hc
  simp [OnceMap.get_or_init, hk]

theorem OnceMap.getOrInit_absent {K V σ : Type} [DecidableEq K] {m : OnceMap K V}
    {k : K} (f : σ → V × σ) (s : σ) (h : m.get k = none) :
    m.get_or_init k f s =
      (.Init (f s).1, ⟨some ((k, (f s).1) :: m.cache.getD [])⟩, (f s).2) := by
  cases hc : m.cache with
  | none => simp [OnceMap.get_or_init, hc, findVal]
  | some entries =>
    have hk : findVal entries k = none := by simpa [OnceMap.get, hc] using h
    simp [OnceMap.get_or_init, hc, hk]

/-- A mapping present in the map survives any single API call. -/
theorem get_step_mono {K V : Type} [DecidableEq K] {m : OnceMap K V} (op : Op K V)
    {k : K} {v : V} (h : m.get k = some v) : (step m op).get k = some v := by
  obtain ⟨entries, hc, hfind⟩ := OnceMap.get_eq_some h
  cases op with
  | get _ => simpa [step]
  | init k1 f =>
    cases hk1 : findVal entries k1 with
    | some w => simp [step, OnceMap.init_present (liftF f) () hc hk1, h]
    | none =>
      have hne : k1 ≠ k := by
        rintro rfl
        rw [hk1] at hfind
        exact Option.noConfusion hfind
      simp [step, OnceMap.init_absent (liftF f) () hc hk1, OnceMap.get,
        findVal_cons_ne _ _ hne, hfind]
  | getOrInit k1 f =>
    cases hk1 : findVal entries k1 with
    | some w =>
      have : m.get k1 = some w := by simp [OnceMap.get, hc, hk1]
      simp [step, OnceMap.getOrInit_present (liftF f) () this, h]
    | none =>
      have hne : k1 ≠ k := by
        rintro rfl
        rw [hk1] at hfind
        exact Option.noConfusion hfind
      have habs : m.get k1 = none := by simp [OnceMap.get, hc, hk1]
      simp [step, OnceMap.getOrInit_absent (liftF f) () habs, OnceMap.get, hc,
        findVal_cons_ne _ _ hne, hfind]

/-- A mapping present in the map survives any sequence of API calls. -/
theorem get_exec_mono {K V : Type} [DecidableEq K] {m : OnceMap K V} (ops : List (Op K V))
    {k : K} {v : V} (h : m.get k = some v) : (exec m ops).get k = some v := by
  induction ops generalizing m with
  | nil => simpa [exec]
  | cons op ops ih => exact ih (get_step_mono op h)

/-- An absent key stays absent under any single API call whose key differs. -/
theorem get_none_step {K V : Type} [DecidableEq K] {m : OnceMap K V} {op : Op K V}
    {k : K} (h : m.get k = none) (hop : op.mayInsert ≠ some k) :
    (step m op).get k = none := by
  cases op with
  | get _ => simpa [step]
  | init k1 f =>
    have hne : k1 ≠ k := fun he => hop (by simp [Op.mayInsert, he])
    cases hc : m.cache with
    | none => simpa [step, OnceMap.init_cache_none k1 (liftF f) () hc]
    | some entries =>
      cases hk1 : findVal entries k1 with
      | some w => simp [step, OnceMap.init_present (liftF f) () hc hk1, h]
      | none =>
        have hfind : findVal entries k = none := by simpa [OnceMap.get, hc] using h
        simp [step, OnceMap.init_absent (liftF f) () hc hk1, OnceMap.get,
          findVal_cons_ne _ _ hne, hfind]
  | getOrInit k1 f =>
    have hne : k1 ≠ k := fun he => hop (by simp [Op.mayInsert, he])
    cases hk1 : m.get k1 with
    | some w =>
      simp [step, OnceMap.getOrInit_present (liftF f) () hk1, h]
    | none =>
      have hfind : findVal (m.cache.getD []) k = none := by
        cases hc : m.cache with
        | none => simp [findVal]
        | some entries => simpa [OnceMap.get, hc] using h
      simp [step, OnceMap.getOrInit_absent (liftF f) () hk1, OnceMap.get,
        findVal_cons_ne _ _ hne, hfind]

/-- An absent key stays absent under any call sequence whose keys differ. -/
theorem get_none_exec {K V : Type} [DecidableEq K] {k : K} (ops : List (Op K V)) :
    ∀ (m : OnceMap K V), m.get k = none → (∀ op ∈ ops, op.mayInsert ≠ some k) →
      (exec m ops).get k = none := by
  induction ops with
  | nil => intro m hm _; simpa [exec]
  | cons op ops ih =>
    intro m hm hops
    exact ih _ (get_none_step hm (hops op (List.mem_cons_self op ops)))
      fun o ho => hops o (List.mem_cons_of_mem op ho)

/-- The operation `get_or_init` always leaves the cell filled. -/
theorem getOrInit_cache_isSome {K V σ : Type} [DecidableEq K] (m : OnceMap K V)
    (k : K) (f : σ → V × σ) (s : σ) : ((m.get_or_init k f s).2.1).cache.isSome := by
  cases hk : m.get k with
  | none => simp [OnceMap.getOrInit_absent f s hk]
  | some v =>
    obtain ⟨entries, hc, _⟩ := OnceMap.get_eq_some hk
    simp [OnceMap.getOrInit_present f s hk, hc]

/-- The race invariant is preserved by every locked section. -/
theorem raceInv_step {n : Nat} {V : Type} {fs : Fin n → V} {st st2 : RaceState n V}
    (hinv : raceInv fs st) (h : RaceStep fs st st2) : raceInv fs st2 := by
  cases h with
  | readHit i v hp hs =>
    rcases hinv with ⟨hnone, _⟩ | ⟨j, hj, hjp, hjc, hrest⟩
    · rw [hnone] at hs; exact Option.noConfusion hs
    · have hv : v = fs j := by rw [hj] at hs; exact (Option.some.inj hs).symm
      subst hv
      have hij : i ≠ j := by intro he; rw [he, hjp] at hp; exact Phase.noConfusion hp
      refine Or.inr ⟨j, hj, ?_, ?_, ?_⟩
      · simp only [Function.update_noteq (Ne.symm hij)]; exact hjp
      · simp only [Function.update_noteq (Ne.symm hij)]; exact hjc
      · intro i2 hne
        by_cases hi2 : i2 = i
        · subst hi2
          simp only [Function.update_same]
          exact ⟨(hrest i2 hij).1, Or.inr (Or.inr trivial)⟩
        · simp only [Function.update_noteq hi2]
          exact hrest i2 hne
  | readMiss i hp hs =>
    rcases hinv with ⟨hnone, hall⟩ | ⟨j, hj, _, _, _⟩
    · refine Or.inl ⟨hs, fun i2 => ?_⟩
      by_cases hi2 : i2 = i
      · subst hi2
        simp only [Function.update_same]
        exact ⟨Or.inr trivial, (hall i2).2⟩
      · simp only [Function.update_noteq hi2]
        exact hall i2
    · rw [hj] at hs; exact Option.noConfusion hs
  | writeHit i v hp hs =>
    rcases hinv with ⟨hnone, _⟩ | ⟨j, hj, hjp, hjc, hrest⟩
    · rw [hnone] at hs; exact Option.noConfusion hs
    · have hv : v = fs j := by rw [hj] at hs; exact (Option.some.inj hs).symm
      subst hv
      have hij : i ≠ j := by intro he; rw [he, hjp] at hp; exact Phase.noConfusion hp
      refine Or.inr ⟨j, hj, ?_, ?_, ?_⟩
      · simp only [Function.update_noteq (Ne.symm hij)]; exact hjp
      · simp only [Function.update_noteq (Ne.symm hij)]; exact hjc
      · intro i2 hne
        by_cases hi2 : i2 = i
        · subst hi2
          simp only [Function.update_same]
          exact ⟨(hrest i2 hij).1, Or.inr (Or.inr trivial)⟩
        · simp only [Function.update_noteq hi2]
          exact hrest i2 hne
  | writeMiss i hp hs =>
    rcases hinv with ⟨hnone, hall⟩ | ⟨j, hj, _, _, _⟩
    · refine Or.inr ⟨i, rfl, ?_, ?_, ?_⟩
      · simp only [Function.update_same]
      · simp only [Function.update_same]
        simp [(hall i).2]
      · intro i2 hne
        simp only [Function.update_noteq hne]
        rcases (hall i2).1 with h2 | h2
        · exact ⟨(hall i2).2, Or.inl h2⟩
        · exact ⟨(hall i2).2, Or.inr (Or.inl h2)⟩
    · rw [hj] at hs; exact Option.noConfusion hs

/-- The race invariant holds in every state reachable from the initial one. -/
theorem raceInv_reachable {n : Nat} {V : Type} {fs : Fin n → V} {st : RaceState n V}
    (h : Relation.ReflTransGen (RaceStep fs) (raceInit n V) st) : raceInv fs st := by
  induction h with
  | refl => exact Or.inl ⟨rfl, fun _ => ⟨Or.inl rfl, rfl⟩⟩
  | tail _ hstep ih => exact raceInv_step ih hstep

/-- The state `raceFinal1` really is reachable: probe misses, then the vacant arm runs. -/
theorem raceFinal1_reachable :
    Relation.ReflTransGen (RaceStep fun _ : Fin 1 => (5 : Nat))
      (raceInit 1 Nat) raceFinal1 := by
  have h1 : RaceStep (fun _ : Fin 1 => (5 : Nat)) (raceInit 1 Nat)
      ⟨none, Function.update (raceInit 1 Nat).callers 0 ⟨.needWrite, 0⟩⟩ :=
    RaceStep.readMiss (raceInit 1 Nat) 0 rfl rfl
  have h2 : RaceStep (fun _ : Fin 1 => (5 : Nat))
      ⟨none, Function.update (raceInit 1 Nat).callers 0 ⟨.needWrite, 0⟩⟩ raceFinal1 :=
    RaceStep.writeMiss _ 0 (by simp only [Function.update_same]) rfl
  exact Relation.ReflTransGen.head h1 (Relation.ReflTransGen.single h2)

/-- Every caller of `raceFinal1` has returned. -/
theorem raceFinal1_done :
    ∀ i : Fin 1, ∃ r, (raceFinal1.callers i).phase = Phase.done r := by
  intro i
  have hi : i = 0 := Fin.fin_one_eq_zero i
  subst hi
  exact ⟨.Init 5, by simp [raceFinal1, Function.update_same]⟩

-- sanity checks on concrete inputs (mirroring the repository's tests)
example : (OnceMap.new : OnceMap Nat Nat).get 0 = none := by rfl
example :
    ((OnceMap.new : OnceMap Nat Nat).get_or_init 0 (fun n => (7, n + 1)) 0).1 =
      GetOrInitData.Init 7 := by rfl
example :
    (((OnceMap.new : OnceMap Nat Nat).get_or_init 0 (fun n => (7, n + 1)) 0).2.1).get 0 =
      some 7 := by rfl
example : ((OnceMap.new : OnceMap Nat Nat).init 0 (fun n => (7, n + 1)) 0).1 = false := by rfl

/-! Claim theorems. -/

/-- C1: for every key absent from the map, `get_or_init k f` invokes the
initializer exactly once (the final instrumentation state is `(f s).2`),
inserts the initializer's result under `k`, returns `Init` carrying that new
value, and afterwards every subsequent `get k` — after any further sequence of
API calls — returns that same value. -/
theorem getOrInit_absent_initializes_once {K V σ : Type} [DecidableEq K]
    (m : OnceMap K V) (k : K) (f : σ → V × σ) (s : σ)
    (habs : m.get k = none) :
    (m.get_or_init k f s).1 = GetOrInitData.Init (f s).1 ∧
    (m.get_or_init k f s).2.2 = (f s).2 ∧
    ((m.get_or_init k f s).2.1).get k = some (f s).1 ∧
    ∀ ops : List (Op K V), (exec (m.get_or_init k f s).2.1 ops).get k = some (f s).1 := by
  have hres := OnceMap.getOrInit_absent f s habs
  have hget : ((m.get_or_init k f s).2.1).get k = some (f s).1 := by
    simp [hres, OnceMap.get, findVal_cons_self]
  exact ⟨by simp [hres], by simp [hres], hget, fun ops => get_exec_mono ops hget⟩

theorem getOrInit_absent_initializes_once_witness :
    (OnceMap.new : OnceMap Nat Nat).get 0 = none ∧
    (((OnceMap.new : OnceMap Nat Nat).get_or_init 0 (fun n => (7, n + 1)) 0).1 =
        GetOrInitData.Init 7 ∧
      ((OnceMap.new : OnceMap Nat Nat).get_or_init 0 (fun n => (7, n + 1)) 0).2.2 = 1 ∧
      (((OnceMap.new : OnceMap Nat Nat).get_or_init 0 (fun n => (7, n + 1)) 0).2.1).get 0 =
        some 7 ∧
      ∀ ops : List (Op Nat Nat),
        (exec ((OnceMap.new : OnceMap Nat Nat).get_or_init 0
          (fun n => (7, n + 1)) 0).2.1 ops).get 0 = some 7) :=
  ⟨rfl, getOrInit_absent_initializes_once OnceMap.new 0 (fun n => (7, n + 1)) 0 rfl⟩

/-- C2: for every key already present in the map, `get_or_init k f` returns
`Get` carrying the existing value, leaves the map unchanged, and does not
invoke the caller-supplied initializer (the instrumentation state comes back
untouched, for every `f`). -/
theorem getOrInit_present_observes {K V σ : Type} [DecidableEq K]
    (m : OnceMap K V) (k : K) (v : V) (f : σ → V × σ) (s : σ)
    (hp : m.get k = some v) :
    m.get_or_init k f s = (GetOrInitData.Get v, m, s) :=
  OnceMap.getOrInit_present f s hp

theorem getOrInit_present_observes_witness :
    ((⟨some [(0, 7)]⟩ : OnceMap Nat Nat).get 0 = some 7) ∧
    (⟨some [(0, 7)]⟩ : OnceMap Nat Nat).get_or_init 0 (fun n => (9, n + 1)) 0 =
      (GetOrInitData.Get 7, ⟨some [(0, 7)]⟩, 0) :=
  ⟨rfl, getOrInit_present_observes ⟨some [(0, 7)]⟩ 0 7 (fun n => (9, n + 1)) 0 rfl⟩

/-- C3: with the table materialized and key `k` absent, calling `init` twice
sequentially with different closures: the first call returns `true`, invokes
its closure exactly once and stores its result under `k`; the second call
returns `false`, leaves the map (hence the stored value) unchanged and does
not invoke its closure. -/
theorem init_twice_second_noop {K V σ : Type} [DecidableEq K]
    (m : OnceMap K V) (k : K) (f g : σ → V × σ) (s0 s1 : σ)
    (hmat : m.cache.isSome) (habs : m.get k = none) :
    (m.init k f s0).1 = true ∧
    (m.init k f s0).2.2 = (f s0).2 ∧
    ((m.init k f s0).2.1).get k = some (f s0).1 ∧
    ((m.init k f s0).2.1).init k g s1 = (false, (m.init k f s0).2.1, s1) := by
  obtain ⟨entries, hc⟩ := Option.isSome_iff_exists.mp hmat
  have hk : findVal entries k = none := by simpa [OnceMap.get, hc] using habs
  have h1 := OnceMap.init_absent f s0 hc hk
  have hstored : ((m.init k f s0).2.1).get k = some (f s0).1 := by
    simp [h1, OnceMap.get, findVal_cons_self]
  refine ⟨by simp [h1], by simp [h1], hstored, ?_⟩
  exact OnceMap.init_present g s1 (by simp [h1]) (findVal_cons_self k (f s0).1 entries)

theorem init_twice_second_noop_witness :
    ((⟨some []⟩ : OnceMap Nat Nat).cache.isSome ∧
      (⟨some []⟩ : OnceMap Nat Nat).get 0 = none) ∧
    (((⟨some []⟩ : OnceMap Nat Nat).init 0 (fun n => (7, n + 1)) 0).1 = true ∧
      ((⟨some []⟩ : OnceMap Nat Nat).init 0 (fun n => (7, n + 1)) 0).2.2 = 1 ∧
      (((⟨some []⟩ : OnceMap Nat Nat).init 0 (fun n => (7, n + 1)) 0).2.1).get 0 = some 7 ∧
      (((⟨some []⟩ : OnceMap Nat Nat).init 0 (fun n => (7, n + 1)) 0).2.1).init 0
          (fun n => (9, n + 1)) 5 =
        (false, ((⟨some []⟩ : OnceMap Nat Nat).init 0 (fun n => (7, n + 1)) 0).2.1, 5)) :=
  ⟨⟨rfl, rfl⟩,
    init_twice_second_noop ⟨some []⟩ 0 (fun n => (7, n + 1)) (fun n => (9, n + 1)) 0 5
      rfl rfl⟩

/-- C4: if the backing table has never been materialized (`cache = none`),
`init k f` returns `false`, does not invoke the initializer, and leaves the
container unchanged (in particular it does not create the table). -/
theorem init_unmaterialized_false {K V σ : Type} [DecidableEq K]
    (m : OnceMap K V) (k : K) (f : σ → V × σ) (s : σ)
    (h : m.cache = none) :
    m.init k f s = (false, m, s) :=
  OnceMap.init_cache_none k f s h

theorem init_unmaterialized_false_witness :
    ((OnceMap.new : OnceMap Nat Nat).cache = none) ∧
    (OnceMap.new : OnceMap Nat Nat).init 3 (fun n => (7, n + 1)) 0 =
      (false, OnceMap.new, 0) :=
  ⟨rfl, init_unmaterialized_false OnceMap.new 3 (fun n => (7, n + 1)) 0 rfl⟩

/-- C5: starting from a freshly constructed container, after any sequence of
API calls none of which can insert under key `k` (every `init`/`get_or_init`
in it targets a different key), `get k` returns `none`; in particular
(`ops = []`) `get` on a fresh container returns `none` for every key. -/
theorem get_never_inserted_none {K V : Type} [DecidableEq K] (k : K)
    (ops : List (Op K V)) (h : ∀ op ∈ ops, op.mayInsert ≠ some k) :
    (exec (OnceMap.new : OnceMap K V) ops).get k = none :=
  get_none_exec ops OnceMap.new rfl h

theorem get_never_inserted_none_witness :
    (∀ op ∈ [Op.getOrInit 1 (fun _ => 7), Op.init 2 (fun _ => 9), Op.get 0],
      Op.mayInsert op ≠ some 0) ∧
    (exec (OnceMap.new : OnceMap Nat Nat)
      [Op.getOrInit 1 (fun _ => 7), Op.init 2 (fun _ => 9), Op.get 0]).get 0 = none :=
  ⟨by intro op hop; fin_cases hop <;> simp [Op.mayInsert],
    get_never_inserted_none 0 _
      (by intro op hop; fin_cases hop <;> simp [Op.mayInsert])⟩

/-- C6: every operation (`get`, `init`, `get_or_init`) preserves all existing
key-to-value mappings: once `get k` returns `some v`, it still returns
`some v` after any single further call, and after any further call
sequence. -/
theorem mappings_never_removed {K V : Type} [DecidableEq K]
    (m : OnceMap K V) (k : K) (v : V) (h : m.get k = some v) :
    (∀ op : Op K V, (step m op).get k = some v) ∧
    (∀ ops : List (Op K V), (exec m ops).get k = some v) :=
  ⟨fun op => get_step_mono op h, fun ops => get_exec_mono ops h⟩

theorem mappings_never_removed_witness :
    ((⟨some [(0, 7)]⟩ : OnceMap Nat Nat).get 0 = some 7) ∧
    ((∀ op : Op Nat Nat, (step (⟨some [(0, 7)]⟩ : OnceMap Nat Nat) op).get 0 = some 7) ∧
      (∀ ops : List (Op Nat Nat),
        (exec (⟨some [(0, 7)]⟩ : OnceMap Nat Nat) ops).get 0 = some 7)) :=
  ⟨rfl, mappings_never_removed ⟨some [(0, 7)]⟩ 0 7 rfl⟩

/-- C8: `get` is idempotent after initialization: if `get k` yields `some v`,
then `n` repeated `get k` calls (each on the state left by the previous one)
all yield that same value. -/
theorem get_idempotent_after_init {K V : Type} [DecidableEq K]
    (m : OnceMap K V) (k : K) (v : V) (h : m.get k = some v) (n : Nat) :
    repeatGet m k n = List.replicate n (some v) := by
  induction n generalizing m with
  | zero => simp [repeatGet]
  | succ n ih => simp [repeatGet, List.replicate, h, ih (step m (.get k)) (get_step_mono _ h)]

theorem get_idempotent_after_init_witness :
    ((⟨some [(0, 7)]⟩ : OnceMap Nat Nat).get 0 = some 7) ∧
    repeatGet (⟨some [(0, 7)]⟩ : OnceMap Nat Nat) 0 3 = List.replicate 3 (some 7) :=
  ⟨rfl, get_idempotent_after_init ⟨some [(0, 7)]⟩ 0 7 (by rfl) 3⟩

/-- C9: `get_or_init` materializes the backing table on every call (even when
it performs no insertion), so after any single `get_or_init` call a later
`init` on any absent key succeeds — whereas on a fresh container `init`
always short-circuits to `false`. -/
theorem getOrInit_materializes_table {K V σ : Type} [DecidableEq K]
    (m : OnceMap K V) (k1 : K) (f : σ → V × σ) (s : σ) :
    ((m.get_or_init k1 f s).2.1).cache.isSome ∧
    (∀ (k2 : K) (g : σ → V × σ) (s2 : σ),
      ((m.get_or_init k1 f s).2.1).get k2 = none →
      (((m.get_or_init k1 f s).2.1).init k2 g s2).1 = true ∧
      ((((m.get_or_init k1 f s).2.1).init k2 g s2).2.1).get k2 = some (g s2).1) ∧
    (∀ (k2 : K) (g : σ → V × σ) (s2 : σ),
      (OnceMap.new : OnceMap K V).init k2 g s2 = (false, OnceMap.new, s2)) := by
  refine ⟨getOrInit_cache_isSome m k1 f s, ?_, fun k2 g s2 => rfl⟩
  intro k2 g s2 habs
  obtain ⟨entries, hc⟩ :=
    Option.isSome_iff_exists.mp (getOrInit_cache_isSome m k1 f s)
  have hk2 : findVal entries k2 = none := by simpa [OnceMap.get, hc] using habs
  have h2 := OnceMap.init_absent g s2 hc hk2
  exact ⟨by simp [h2], by simp [h2, OnceMap.get, findVal_cons_self]⟩

theorem getOrInit_materializes_table_witness :
    (((OnceMap.new : OnceMap Nat Nat).get_or_init 0 (fun n => (7, n + 1)) 0).2.1).cache.isSome ∧
    (∀ (k2 : Nat) (g : Nat → Nat × Nat) (s2 : Nat),
      (((OnceMap.new : OnceMap Nat Nat).get_or_init 0
          (fun n => (7, n + 1)) 0).2.1).get k2 = none →
      ((((OnceMap.new : OnceMap Nat Nat).get_or_init 0
          (fun n => (7, n + 1)) 0).2.1).init k2 g s2).1 = true ∧
      (((((OnceMap.new : OnceMap Nat Nat).get_or_init 0
          (fun n => (7, n + 1)) 0).2.1).init k2 g s2).2.1).get k2 = some (g s2).1) ∧
    (∀ (k2 : Nat) (g : Nat → Nat × Nat) (s2 : Nat),
      (OnceMap.new : OnceMap Nat Nat).init k2 g s2 = (false, OnceMap.new, s2)) :=
  getOrInit_materializes_table OnceMap.new 0 (fun n => (7, n + 1)) 0

/-- C10: `get` never modifies the container's state (it is a pure read of the
unchanged state), and on a fresh container a `get` call followed by `init`
still takes `init`'s short-circuit `false` path, leaving everything
unchanged and never invoking the initializer. -/
theorem get_modifies_nothing {K V σ : Type} [DecidableEq K] (m : OnceMap K V) (k : K) :
    step m (Op.get k) = m ∧
    ∀ (k2 : K) (g : σ → V × σ) (s : σ),
      (step (OnceMap.new : OnceMap K V) (Op.get k)).init k2 g s =
        (false, step OnceMap.new (Op.get k), s) :=
  ⟨rfl, fun _ _ _ => rfl⟩

/-- C7: for a fixed absent key and any number `n` of concurrent `get_or_init`
callers, in every complete interleaved execution (every caller finished)
exactly one caller `j` reports `Init`, its initializer ran exactly once, every
other caller reports `Get` of the very same stored value with its initializer
never invoked, and all callers' results carry that one value. -/
theorem getOrInit_race_exactly_once {n : Nat} {V : Type} (fs : Fin n → V)
    (st : RaceState n V)
    (hreach : Relation.ReflTransGen (RaceStep fs) (raceInit n V) st)
    (hdone : ∀ i, ∃ r, (st.callers i).phase = Phase.done r)
    (hn : 0 < n) :
    ∃ j, st.slot = some (fs j) ∧
      (st.callers j).phase = Phase.done (GetOrInitData.Init (fs j)) ∧
      (st.callers j).calls = 1 ∧
      (∀ i, i ≠ j → (st.callers i).phase = Phase.done (GetOrInitData.Get (fs j)) ∧
        (st.callers i).calls = 0) ∧
      (∀ i, ∃ r, (st.callers i).phase = Phase.done r ∧ r.into_data = fs j) := by
  rcases raceInv_reachable hreach with ⟨_, hall⟩ | ⟨j, hj, hjp, hjc, hrest⟩
  · obtain ⟨r, hr⟩ := hdone ⟨0, hn⟩
    rcases (hall ⟨0, hn⟩).1 with h | h <;> rw [hr] at h <;> exact Phase.noConfusion h
  · have hgets : ∀ i, i ≠ j →
        (st.callers i).phase = Phase.done (GetOrInitData.Get (fs j)) ∧
        (st.callers i).calls = 0 := by
      intro i hne
      obtain ⟨r, hr⟩ := hdone i
      rcases (hrest i hne).2 with h | h | h
      · rw [hr] at h; exact Phase.noConfusion h
      · rw [hr] at h; exact Phase.noConfusion h
      · exact ⟨h, (hrest i hne).1⟩
    refine ⟨j, hj, hjp, hjc, hgets, fun i => ?_⟩
    by_cases hi : i = j
    · subst hi; exact ⟨.Init (fs i), hjp, rfl⟩
    · exact ⟨.Get (fs j), (hgets i hi).1, rfl⟩

theorem getOrInit_race_exactly_once_witness :
    ((∀ i : Fin 1, ∃ r, (raceFinal1.callers i).phase = Phase.done r) ∧ 0 < 1) ∧
    ∃ j : Fin 1, raceFinal1.slot = some 5 ∧
      (raceFinal1.callers j).phase = Phase.done (GetOrInitData.Init 5) ∧
      (raceFinal1.callers j).calls = 1 ∧
      (∀ i, i ≠ j → (raceFinal1.callers i).phase = Phase.done (GetOrInitData.Get 5) ∧
        (raceFinal1.callers i).calls = 0) ∧
      (∀ i, ∃ r, (raceFinal1.callers i).phase = Phase.done r ∧ r.into_data = 5) :=
  ⟨⟨raceFinal1_done, by decide⟩,
    getOrInit_race_exactly_once (fun _ => 5) raceFinal1 raceFinal1_reachable
      raceFinal1_done (by decide)⟩
